import Mathlib

/-!
Verification development for the speech-training-recorder repository
(`recorder.py`).  The Python source is shallowly embedded: strings become
`List Char`, raw audio byte blocks become `List Nat`, the thread-safe
queue contents become an explicit list of blocks, and the random number
generator is passed in as an explicit index oracle.  Fallible paths
(`random.choice` on an empty sequence, the configuration checks in
`Recorder.__init__`) are modelled with `Except`.
-/

namespace Recorder

/-! ### Capture buffer drain (`Recorder.read_audio`, recorder.py lines 71-81)

The Python loop pops every queued block, keeps only truthy (non-empty)
blocks, then executes `if drop_last: blocks = blocks[:-drop_last]` and
returns `b''.join(blocks)`.  `drop_last = 0` (or `None`) is falsy, so the
slice is skipped in that case. -/

/-- Python's `blocks[:-drop_last]` guarded by `if drop_last:`:
for a falsy (`0`) argument the list is kept whole, otherwise the last
`drop_last` entries are removed (clamped at empty, never negative). -/
def pySliceDropLast (blocks : List (List Nat)) (drop_last : Nat) : List (List Nat) :=
  if drop_last = 0 then blocks else blocks.take (blocks.length - drop_last)

/-- `Recorder.read_audio(drop_last)`: drain the queue in FIFO order,
skipping falsy (empty) blocks, drop the last `drop_last` kept blocks,
and concatenate the rest. -/
def read_audio (chunks : List (List Nat)) (drop_last : Nat) : List Nat :=
  (pySliceDropLast (chunks.filter (fun b => !b.isEmpty)) drop_last).flatten

theorem pySliceDropLast_eq_take (blocks : List (List Nat)) (k : Nat) :
    pySliceDropLast blocks k = blocks.take (blocks.length - k) := by
  unfold pySliceDropLast
  by_cases hk : k = 0
  · subst hk
    simp
  · simp [hk]

/-- C1 counterexample: with an empty chunk among the pushed chunks the
result of `read_audio` is not the concatenation of the first
`N - drop_last` pushed chunks: the empty chunk is discarded by the
`if block:` filter before the drop is applied, so pushing
`[[1], [2], []]` and dropping 1 yields `[1]`, not `[1, 2]`. -/
theorem read_audio_counterexample :
    read_audio [[1], [2], []] 1 ≠ ([[1], [2], ([] : List Nat)].take (3 - 1)).flatten := by
  decide

/-- C1 (amended): for every sequence of *non-empty* pushed chunks and
every `drop_last ≥ 0`, `read_audio` returns the byte concatenation, in
push (FIFO) order, of exactly the first `max (0, N - drop_last)` chunks;
when fewer than `drop_last` chunks were held the result is empty. -/
theorem read_audio_drop_spec (chunks : List (List Nat)) (k : Nat)
    (h : ∀ b ∈ chunks, b ≠ []) :
    read_audio chunks k = (chunks.take (chunks.length - k)).flatten ∧
    (chunks.length ≤ k → read_audio chunks k = []) := by
  have hfilter : chunks.filter (fun b => !b.isEmpty) = chunks := by
    rw [List.filter_eq_self]
    intro a ha
    simpa using h a ha
  have hmain : read_audio chunks k = (chunks.take (chunks.length - k)).flatten := by
    unfold read_audio
    rw [hfilter, pySliceDropLast_eq_take]
  refine ⟨hmain, fun hle => ?_⟩
  rw [hmain, Nat.sub_eq_zero_of_le hle]
  simp

/-- C1 witness: three non-empty chunks, drop the last two. -/
theorem read_audio_drop_spec_witness :
    read_audio [[10], [20], [30]] 2 =
      (([[10], [20], [30]] : List (List Nat)).take
        (([[10], [20], [30]] : List (List Nat)).length - 2)).flatten ∧
    (([[10], [20], [30]] : List (List Nat)).length ≤ 2 →
      read_audio [[10], [20], [30]] 2 = []) :=
  read_audio_drop_spec [[10], [20], [30]] 2 (by decide)

/-! ### Text primitives

Python's `str.strip()` and the whitespace class `\s` of the `re` module,
over `List Char`. -/

/-- The ASCII whitespace class of Python's `str.strip()` / `re` `\s`. -/
def isSpace (c : Char) : Bool :=
  c = ' ' || c = '\t' || c = '\n' || c = '\r' || c = '\x0b' || c = '\x0c'

/-- Python `s.strip()`: remove leading and trailing whitespace. -/
def stripChars (s : List Char) : List Char :=
  (((s.dropWhile isSpace).reverse.dropWhile isSpace)).reverse

theorem stripChars_eq_nil_iff (l : List Char) :
    stripChars l = [] ↔ ∀ c ∈ l, isSpace c = true := by
  unfold stripChars
  rw [List.reverse_eq_nil_iff, List.dropWhile_eq_nil_iff]
  constructor
  · intro h c hc
    have hc2 : c ∈ l.takeWhile isSpace ++ l.dropWhile isSpace := by
      rw [List.takeWhile_append_dropWhile]
      exact hc
    rcases List.mem_append.mp hc2 with hin | hin
    · exact List.mem_takeWhile_imp hin
    · exact h c (List.mem_reverse.mpr hin)
  · intro h c hc
    exact h c (List.dropWhile_subset isSpace (List.mem_reverse.mp hc))

theorem stripChars_ne_nil_of_mem {l : List Char} {c : Char}
    (hc : c ∈ l) (hns : isSpace c = false) : stripChars l ≠ [] := by
  intro h
  have := (stripChars_eq_nil_iff l).mp h c hc
  simp [hns] at this

/-! ### Words of a string

`wordsOf` lists the maximal whitespace-free runs of a string, in order;
two strings have the same words exactly when they agree up to whitespace
normalisation.  Used to state the chunking invariants. -/

def wordsOf : List Char → List (List Char)
  | [] => []
  | c :: rest =>
    if isSpace c then wordsOf rest
    else (c :: rest.takeWhile (fun x => !(isSpace x))) ::
      wordsOf (rest.dropWhile (fun x => !(isSpace x)))
termination_by s => s.length
decreasing_by
  · simp only [List.length_cons]
    exact Nat.lt_succ_of_le (Nat.le_refl _)
  · simp only [List.length_cons]
    exact Nat.lt_succ_of_le ((List.dropWhile_sublist _).length_le)

theorem wordsOf_nil : wordsOf [] = [] := by
  simp [wordsOf]

theorem wordsOf_cons_space {c : Char} (hc : isSpace c = true) (l : List Char) :
    wordsOf (c :: l) = wordsOf l := by
  rw [wordsOf]
  simp [hc]

theorem wordsOf_cons_nonspace {c : Char} (hc : isSpace c = false) (l : List Char) :
    wordsOf (c :: l) = (c :: l.takeWhile (fun x => !(isSpace x))) ::
      wordsOf (l.dropWhile (fun x => !(isSpace x))) := by
  rw [wordsOf]
  simp [hc]

/-- The head of `b` (if any) is whitespace: the side condition under which
words distribute over an append. -/
def WsHead (b : List Char) : Prop :=
  ∀ c, b.head? = some c → isSpace c = true

theorem takeWhile_append_wsHead {a b : List Char} (hb : WsHead b) :
    (a ++ b).takeWhile (fun x => !(isSpace x)) = a.takeWhile (fun x => !(isSpace x)) := by
  induction a with
  | nil =>
    cases b with
    | nil => rfl
    | cons c t =>
      have := hb c rfl
      simp [List.takeWhile_cons, this]
  | cons c t ih =>
    by_cases hc : isSpace c
    · simp [List.takeWhile_cons, hc]
    · simp [List.takeWhile_cons, hc, ih]

theorem dropWhile_append_wsHead {a b : List Char} (hb : WsHead b) :
    (a ++ b).dropWhile (fun x => !(isSpace x)) = a.dropWhile (fun x => !(isSpace x)) ++ b := by
  induction a with
  | nil =>
    cases b with
    | nil => rfl
    | cons c t =>
      have := hb c rfl
      simp [List.dropWhile_cons, this]
  | cons c t ih =>
    by_cases hc : isSpace c
    · simp [List.dropWhile_cons, hc]
    · simp [List.dropWhile_cons, hc, ih]

theorem wordsOf_append_aux :
    ∀ (n : Nat) (a b : List Char), a.length ≤ n → WsHead b →
      wordsOf (a ++ b) = wordsOf a ++ wordsOf b := by
  intro n
  induction n with
  | zero =>
    intro a b ha _
    have : a = [] := List.length_eq_zero.mp (Nat.le_zero.mp ha)
    subst this
    simp [wordsOf_nil]
  | succ n ih =>
    intro a b ha hb
    cases a with
    | nil => simp [wordsOf_nil]
    | cons c t =>
      by_cases hc : isSpace c
      · rw [List.cons_append, wordsOf_cons_space hc, wordsOf_cons_space hc]
        exact ih t b (Nat.le_of_succ_le_succ ha) hb
      · have hc' : isSpace c = false := by simpa using hc
        rw [List.cons_append, wordsOf_cons_nonspace hc', wordsOf_cons_nonspace hc',
          takeWhile_append_wsHead hb, dropWhile_append_wsHead hb]
        have hlen : (t.dropWhile (fun x => !(isSpace x))).length ≤ n :=
          Nat.le_trans (List.dropWhile_sublist _).length_le (Nat.le_of_succ_le_succ ha)
        rw [ih _ b hlen hb]
        simp

theorem wordsOf_append {a b : List Char} (hb : WsHead b) :
    wordsOf (a ++ b) = wordsOf a ++ wordsOf b :=
  wordsOf_append_aux a.length a b (Nat.le_refl _) hb

theorem wordsOf_all_space {l : List Char} (h : ∀ c ∈ l, isSpace c = true) :
    wordsOf l = [] := by
  induction l with
  | nil => exact wordsOf_nil
  | cons c t ih =>
    rw [wordsOf_cons_space (h c (List.mem_cons_self c t))]
    exact ih (fun x hx => h x (List.mem_cons_of_mem c hx))

theorem wordsOf_dropWhile (l : List Char) :
    wordsOf (l.dropWhile isSpace) = wordsOf l := by
  induction l with
  | nil => rfl
  | cons c t ih =>
    by_cases hc : isSpace c
    · rw [List.dropWhile_cons_of_pos hc, wordsOf_cons_space hc]
      exact ih
    · rw [List.dropWhile_cons_of_neg hc]

theorem wordsOf_stripChars (l : List Char) :
    wordsOf (stripChars l) = wordsOf l := by
  unfold stripChars
  have hdecomp : l.dropWhile isSpace =
      ((l.dropWhile isSpace).reverse.dropWhile isSpace).reverse ++
      ((l.dropWhile isSpace).reverse.takeWhile isSpace).reverse := by
    conv_lhs => rw [← List.reverse_reverse (l.dropWhile isSpace)]
    conv_lhs => rw [← List.takeWhile_append_dropWhile isSpace (l.dropWhile isSpace).reverse]
    rw [List.reverse_append]
  have hws : WsHead (((l.dropWhile isSpace).reverse.takeWhile isSpace).reverse) := by
    intro c hc
    have hm : c ∈ ((l.dropWhile isSpace).reverse.takeWhile isSpace).reverse :=
      List.mem_of_mem_head? hc
    exact List.mem_takeWhile_imp (List.mem_reverse.mp hm)
  calc wordsOf (((l.dropWhile isSpace).reverse.dropWhile isSpace)).reverse
      = wordsOf (((l.dropWhile isSpace).reverse.dropWhile isSpace)).reverse ++
        wordsOf (((l.dropWhile isSpace).reverse.takeWhile isSpace).reverse) := by
        rw [wordsOf_all_space (l := ((l.dropWhile isSpace).reverse.takeWhile isSpace).reverse)
          (fun c hc => List.mem_takeWhile_imp (List.mem_reverse.mp hc))]
        simp
    _ = wordsOf (l.dropWhile isSpace) := by rw [← wordsOf_append hws, ← hdecomp]
    _ = wordsOf l := wordsOf_dropWhile l

/-! ### Prompt chunker (`Recorder.split_script`, recorder.py lines 119-133)

`split_script(script, split_len)` computes `n = ceil(len(script)/split_len)`
and loops `for i in range(n)`: it searches for the first whitespace at or
after `startpos + split_len`; the segment is `script[startpos:endpos]`
stripped; if no whitespace was found the final segment runs to the end and
the loop breaks, otherwise the next segment starts at the whitespace
position.  The `for` bound acts as fuel. -/

/-- `math.ceil(a / b)` on naturals. -/
def ceilNat (a b : Nat) : Nat :=
  (a + b - 1) / b

/-- `re.compile(r'\s+').search(script, pos).start()`: index of the first
whitespace character at or after `pos` (`none` when there is none). -/
def findWs (s : List Char) (pos : Nat) : Option Nat :=
  (List.range s.length).find? (fun i => decide (pos ≤ i) && isSpace (s.getD i ' '))

/-- The loop body of `split_script`, with the `range n` bound as fuel. -/
def split_loop (s : List Char) (d : Nat) : Nat → Nat → List (List Char)
  | _, 0 => []
  | startpos, fuel + 1 =>
    match findWs s (startpos + d) with
    | none => [stripChars (s.drop startpos)]
    | some endpos =>
      stripChars ((s.drop startpos).take (endpos - startpos)) ::
        split_loop s d endpos fuel

/-- `Recorder.split_script(script, split_len)`. -/
def split_script (s : List Char) (d : Nat) : List (List Char) :=
  split_loop s d 0 (ceilNat s.length d)

/-- The sequence of `endpos` values (segment cut positions) produced by
the `split_script` loop. -/
def cuts_loop (s : List Char) (d : Nat) : Nat → Nat → List Nat
  | _, 0 => []
  | startpos, fuel + 1 =>
    match findWs s (startpos + d) with
    | none => []
    | some endpos => endpos :: cuts_loop s d endpos fuel

def cutPositions (s : List Char) (d : Nat) : List Nat :=
  cuts_loop s d 0 (ceilNat s.length d)

/-- Chop `s` at the given ascending cut positions, starting at `start`. -/
def chopAt (s : List Char) : Nat → List Nat → List (List Char)
  | start, [] => [s.drop start]
  | start, e :: rest => (s.drop start).take (e - start) :: chopAt s e rest

/-- Python `' '.join(...)`-style rejoin of segments with single spaces. -/
def joinSpace : List (List Char) → List Char
  | [] => []
  | [x] => x
  | x :: y :: rest => x ++ ' ' :: joinSpace (y :: rest)

theorem findWs_some {s : List Char} {pos e : Nat} (h : findWs s pos = some e) :
    pos ≤ e ∧ e < s.length ∧ isSpace (s.getD e ' ') = true := by
  have hp := List.find?_some h
  have hm := List.mem_of_find?_eq_some h
  rw [List.mem_range] at hm
  simp only [Bool.and_eq_true, decide_eq_true_eq] at hp
  exact ⟨hp.1, hm, hp.2⟩

theorem le_ceilNat_mul (n d : Nat) (hd : 0 < d) : n ≤ ceilNat n d * d := by
  unfold ceilNat
  have h1 := Nat.div_add_mod (n + d - 1) d
  have h2 := Nat.mod_lt (n + d - 1) hd
  rw [Nat.mul_comm] at h1
  generalize (n + d - 1) / d * d = Q at h1 ⊢
  omega

theorem split_loop_succ_none {s : List Char} {d startpos fuel : Nat}
    (hf : findWs s (startpos + d) = none) :
    split_loop s d startpos (fuel + 1) = [stripChars (s.drop startpos)] := by
  rw [split_loop, hf]

theorem split_loop_succ_some {s : List Char} {d startpos fuel e : Nat}
    (hf : findWs s (startpos + d) = some e) :
    split_loop s d startpos (fuel + 1) =
      stripChars ((s.drop startpos).take (e - startpos)) :: split_loop s d e fuel := by
  rw [split_loop, hf]

theorem split_loop_length_le (s : List Char) (d : Nat) :
    ∀ (fuel startpos : Nat), (split_loop s d startpos fuel).length ≤ fuel := by
  intro fuel
  induction fuel with
  | zero => intro startpos; simp [split_loop]
  | succ fuel ih =>
    intro startpos
    rw [split_loop]
    cases findWs s (startpos + d) with
    | none => simp
    | some e =>
      simp only [List.length_cons]
      exact Nat.succ_le_succ (ih e)

theorem joinSpace_words (l : List (List Char)) :
    wordsOf (joinSpace l) = (l.map wordsOf).flatten := by
  induction l with
  | nil => simp [joinSpace, wordsOf_nil]
  | cons x rest ih =>
    cases rest with
    | nil => simp [joinSpace]
    | cons y t =>
      rw [joinSpace, wordsOf_append (b := ' ' :: joinSpace (y :: t)) (by intro c hc; cases hc; rfl),
        wordsOf_cons_space (by rfl), ih]
      simp

theorem split_loop_words (s : List Char) (d : Nat) :
    ∀ (fuel startpos : Nat), s.length ≤ startpos + fuel * d →
      ((split_loop s d startpos fuel).map wordsOf).flatten = wordsOf (s.drop startpos) := by
  intro fuel
  induction fuel with
  | zero =>
    intro startpos h
    rw [List.drop_eq_nil_of_le (by omega)]
    simp [split_loop, wordsOf_nil]
  | succ fuel ih =>
    intro startpos h
    rw [split_loop]
    cases hf : findWs s (startpos + d) with
    | none =>
      simp [wordsOf_stripChars]
    | some e =>
      obtain ⟨hpos, helen, hws⟩ := findWs_some hf
      have hinv : s.length ≤ e + fuel * d := by
        rw [Nat.succ_mul] at h
        generalize fuel * d = F at h ⊢
        omega
      have hse : startpos ≤ e := by omega
      have hdecomp : s.drop startpos = (s.drop startpos).take (e - startpos) ++ s.drop e := by
        conv_lhs => rw [← List.take_append_drop (e - startpos) (s.drop startpos)]
        rw [List.drop_drop, Nat.add_sub_cancel' hse]
      have hwshead : WsHead (s.drop e) := by
        intro c hc
        rw [List.head?_drop] at hc
        have : s.getD e ' ' = c := by
          simp [List.getD_eq_getElem?_getD, hc]
        rw [← this]
        exact hws
      rw [List.map_cons, List.flatten_cons, ih e hinv, wordsOf_stripChars]
      conv_rhs => rw [hdecomp]
      rw [wordsOf_append hwshead]

theorem cuts_loop_ws (s : List Char) (d : Nat) :
    ∀ (fuel startpos : Nat), ∀ e ∈ cuts_loop s d startpos fuel,
      e < s.length ∧ isSpace (s.getD e ' ') = true := by
  intro fuel
  induction fuel with
  | zero => intro startpos e he; simp [cuts_loop] at he
  | succ fuel ih =>
    intro startpos e he
    rw [cuts_loop] at he
    cases hf : findWs s (startpos + d) with
    | none => rw [hf] at he; simp at he
    | some e0 =>
      rw [hf] at he
      rcases List.mem_cons.mp he with h | h
      · subst h
        obtain ⟨_, h2, h3⟩ := findWs_some hf
        exact ⟨h2, h3⟩
      · exact ih e0 e h

theorem split_loop_eq_chop (s : List Char) (d : Nat) :
    ∀ (fuel startpos : Nat), 1 ≤ fuel → startpos < s.length →
      s.length ≤ startpos + fuel * d →
      split_loop s d startpos fuel =
        (chopAt s startpos (cuts_loop s d startpos fuel)).map stripChars := by
  intro fuel
  induction fuel with
  | zero => intro startpos h1 _ _; omega
  | succ fuel ih =>
    intro startpos _ hlt hinv
    rw [split_loop, cuts_loop]
    cases hf : findWs s (startpos + d) with
    | none => simp [chopAt]
    | some e =>
      obtain ⟨hpos, helen, _⟩ := findWs_some hf
      have hinv2 : s.length ≤ e + fuel * d := by
        rw [Nat.succ_mul] at hinv
        generalize fuel * d = F at hinv ⊢
        omega
      have hfuel : 1 ≤ fuel := by
        rcases Nat.eq_zero_or_pos fuel with h0 | h1
        · subst h0; omega
        · exact h1
      have hrec := ih e hfuel helen hinv2
      simp only [chopAt, List.map_cons, hrec]

theorem split_loop_nonempty_dropLast (s : List Char) (d : Nat) (hd : 1 ≤ d)
    (hadj : ∀ i, i + 1 < s.length →
      ¬(isSpace (s.getD i ' ') = true ∧ isSpace (s.getD (i + 1) ' ') = true)) :
    ∀ (fuel startpos : Nat), s.length ≤ startpos + fuel * d →
      ((startpos = 0 ∧ ∀ c, s.head? = some c → isSpace c = false) ∨
        (startpos < s.length ∧ isSpace (s.getD startpos ' ') = true)) →
      ∀ seg ∈ (split_loop s d startpos fuel).dropLast, seg ≠ [] := by
  intro fuel
  induction fuel with
  | zero => intro startpos _ _ seg hseg; simp [split_loop] at hseg
  | succ fuel ih =>
    intro startpos hinv hQ seg hseg
    cases hf : findWs s (startpos + d) with
    | none =>
      rw [split_loop_succ_none hf] at hseg
      simp at hseg
    | some e =>
      rw [split_loop_succ_some hf] at hseg
      obtain ⟨hpos, helen, hws⟩ := findWs_some hf
      have hinv2 : s.length ≤ e + fuel * d := by
        rw [Nat.succ_mul] at hinv
        generalize fuel * d = F at hinv ⊢
        omega
      have hseg0 : stripChars ((s.drop startpos).take (e - startpos)) ≠ [] := by
        rcases hQ with ⟨h0, hhead⟩ | ⟨hlt, hwsstart⟩
        · subst h0
          cases s with
          | nil => simp at helen
          | cons c t =>
            have hc : isSpace c = false := hhead c rfl
            cases e with
            | zero => omega
            | succ e1 =>
              apply stripChars_ne_nil_of_mem (c := c) _ hc
              rw [List.drop_zero]
              simp
        · have h2 : startpos + 2 ≤ e := by
            rcases Nat.lt_or_ge e (startpos + 2) with hcase | hcase
            · have he1 : e = startpos + 1 := by omega
              exact absurd ⟨hwsstart, by rw [← he1]; exact hws⟩
                (hadj startpos (by omega))
            · exact hcase
          have hlen1 : startpos + 1 < s.length := by omega
          have hnw : isSpace (s.getD (startpos + 1) ' ') = false := by
            by_contra hx
            rw [Bool.not_eq_false] at hx
            exact hadj startpos hlen1 ⟨hwsstart, hx⟩
          have hplen : 1 < ((s.drop startpos).take (e - startpos)).length := by
            rw [List.length_take, List.length_drop]
            omega
          have hval : ((s.drop startpos).take (e - startpos)).get ⟨1, hplen⟩ =
              s.getD (startpos + 1) ' ' := by
            rw [List.get_eq_getElem, List.getElem_take, List.getElem_drop,
              List.getD_eq_getElem?_getD, List.getElem?_eq_getElem hlen1]
            rfl
          apply stripChars_ne_nil_of_mem
            (c := ((s.drop startpos).take (e - startpos)).get ⟨1, hplen⟩)
            (List.get_mem _ _ _)
          rw [hval]
          exact hnw
      cases hrest : split_loop s d e fuel with
      | nil =>
        rw [hrest] at hseg
        simp at hseg
      | cons r rs =>
        rw [hrest, List.dropLast_cons₂] at hseg
        rcases List.mem_cons.mp hseg with h | h
        · subst h; exact hseg0
        · exact ih e hinv2 (Or.inr ⟨helen, hws⟩) seg (by rw [hrest]; exact h)

/-- C4 counterexample: `split_script ['a', 'b'] 1` returns one segment,
not `ceil(2/1) = 2` of them: when no whitespace remains the loop breaks
before exhausting its `range n` bound. -/
theorem split_script_count_counterexample :
    ¬((split_script ['a', 'b'] 1).length = ceilNat (['a', 'b'] : List Char).length 1) := by
  decide

/-- C4 (amended): for every prompt and every softMax ≥ 1, `split_script`
returns at most `ceil(len(prompt)/softMax)` segments; the early break can
make it fewer. -/
theorem split_script_length_le_ceil (s : List Char) (d : Nat) (_hd : 1 ≤ d) :
    (split_script s d).length ≤ ceilNat s.length d :=
  split_loop_length_le s d (ceilNat s.length d) 0

/-- C4 witness. -/
theorem split_script_length_le_ceil_witness :
    (split_script ['a', 'b'] 1).length ≤ ceilNat (['a', 'b'] : List Char).length 1 :=
  split_script_length_le_ceil ['a', 'b'] 1 (by decide)

/-- C6: for every prompt and softMax ≥ 1, rejoining the segments of
`split_script` with single spaces reproduces the prompt's words in order;
every segment cut position is a whitespace index of the prompt (so no
boundary falls inside a word), and for a non-empty prompt the segments are
exactly the prompt chopped at those positions and stripped. -/
theorem split_script_words_and_boundaries (s : List Char) (d : Nat) (hd : 1 ≤ d) :
    wordsOf (joinSpace (split_script s d)) = wordsOf s ∧
    ((cutPositions s d).all
      (fun e => decide (e < s.length) && isSpace (s.getD e ' '))) = true ∧
    (s ≠ [] → split_script s d = (chopAt s 0 (cutPositions s d)).map stripChars) := by
  have hd0 : 0 < d := hd
  refine ⟨?_, ?_, ?_⟩
  · rw [joinSpace_words]
    have hw := split_loop_words s d (ceilNat s.length d) 0
      (by simpa using le_ceilNat_mul s.length d hd0)
    simpa [split_script] using hw
  · rw [List.all_eq_true]
    intro e he
    obtain ⟨h1, h2⟩ := cuts_loop_ws s d (ceilNat s.length d) 0 e he
    simp [h1] at h2
    simp [h1, h2]
  · intro hne
    have hlen : 0 < s.length := List.length_pos.mpr hne
    have hfuel : 1 ≤ ceilNat s.length d := by
      unfold ceilNat
      rw [Nat.le_div_iff_mul_le hd0]
      omega
    exact split_loop_eq_chop s d (ceilNat s.length d) 0 hfuel hlen
      (by simpa using le_ceilNat_mul s.length d hd0)

/-- C6 witness, at the prompt `"one two three"` with softMax 4. -/
theorem split_script_words_and_boundaries_witness :
    wordsOf (joinSpace (split_script ("one two three").data 4)) =
      wordsOf ("one two three").data ∧
    ((cutPositions ("one two three").data 4).all
      (fun e => decide (e < ("one two three").data.length) &&
        isSpace (("one two three").data.getD e ' '))) = true ∧
    (("one two three").data ≠ [] → split_script ("one two three").data 4 =
      (chopAt ("one two three").data 0 (cutPositions ("one two three").data 4)).map stripChars) :=
  split_script_words_and_boundaries ("one two three").data 4 (by decide)

/-- C7 counterexample: for the non-empty prompt `"   a"` with softMax 1,
the first two segments strip to empty although they are not the last one
(the returned list is `["", "", "a"]`). -/
theorem split_script_empty_segment_counterexample :
    [] ∈ (split_script [' ', ' ', ' ', 'a'] 1).dropLast ∧
    ([' ', ' ', ' ', 'a'] : List Char) ≠ [] := by
  decide

/-- C7 (amended): provided the prompt has no leading whitespace and no two
adjacent whitespace characters, every segment of `split_script` except
possibly the very last is non-empty after trimming.  (Otherwise a non-last
segment can strip to empty, and the empty prompt produces no segments at
all rather than one empty segment.) -/
theorem split_script_nonempty_segments (s : List Char) (d : Nat) (hd : 1 ≤ d)
    (hlead : isSpace (s.headD 'x') = false)
    (hadj : ∀ i ∈ List.range s.length, i + 1 < s.length →
      ¬(isSpace (s.getD i ' ') = true ∧ isSpace (s.getD (i + 1) ' ') = true)) :
    ∀ seg ∈ (split_script s d).dropLast, seg ≠ [] := by
  have hadj2 : ∀ i, i + 1 < s.length →
      ¬(isSpace (s.getD i ' ') = true ∧ isSpace (s.getD (i + 1) ' ') = true) :=
    fun i hi => hadj i (List.mem_range.mpr (by omega)) hi
  have hlead2 : ∀ c, s.head? = some c → isSpace c = false := by
    intro c hc
    cases s with
    | nil => simp at hc
    | cons a t =>
      have hca : a = c := by simpa using hc
      subst hca
      simpa using hlead
  exact split_loop_nonempty_dropLast s d hd hadj2 (ceilNat s.length d) 0
    (by simpa using le_ceilNat_mul s.length d hd) (Or.inl ⟨rfl, hlead2⟩)

/-- C7 witness: at the prompt `"ab cd e"` with softMax 2, the non-last
segment `"ab"` is non-empty. -/
theorem split_script_nonempty_segments_witness :
    ("ab").data ≠ [] :=
  split_script_nonempty_segments ("ab cd e").data 2 (by decide) (by decide) (by decide)
    (("ab").data) (by decide)

/-! ### Corpus cleanup (`filter` inside `Recorder.get_scripts_from_file`,
recorder.py lines 90-98)

Two `re.sub(..., count=1)` patterns are applied in order:
`r'^\w+ "(.*)"$'` (arctic) and `r'^(.*) \(s.\d+\)$'` (timit), each
replaced by the captured group when the whole line matches.  They are
modelled directly: `\w` is the word-character class (modelled on ASCII:
alphanumeric or underscore, which covers every corpus line appearing in
the claims), `.` is any character except a newline, and the greedy `(.*)`
of the timit pattern takes the longest matching prefix. -/

def isWordChar (c : Char) : Bool :=
  c.isAlphanum || c = '_'

/-- `re.sub(r'^\w+ "(.*)"$', r'\1', s, count=1)`: a non-empty maximal run
of word characters, a space, a double quote, any newline-free text, and a
closing double quote at the end of the line; replaced by the text. -/
def arcticSub (s : List Char) : List Char :=
  let w := s.takeWhile isWordChar
  match s.drop w.length with
  | ' ' :: '"' :: rest =>
    if 1 ≤ w.length ∧ 1 ≤ rest.length ∧ rest.getLastD 'x' = '"' ∧
        (∀ c ∈ rest.dropLast, c ≠ '\n') then
      rest.dropLast
    else s
  | _ => s

/-- `\d+\)` at the end of the line: one or more digits then `)`. -/
def digitsThenParen : List Char → Bool
  | [')'] => true
  | c :: rest => c.isDigit && digitsThenParen rest
  | [] => false

/-- `\d+\)$` preceded by at least one digit. -/
def digitsClose : List Char → Bool
  | c :: rest => c.isDigit && digitsThenParen rest
  | [] => false

/-- ` \(s.\d+\)$`: a space, `(s`, one arbitrary (non-newline) character,
one or more digits, and `)` ending the line. -/
def timitTail : List Char → Bool
  | ' ' :: '(' :: 's' :: c :: rest => (c ≠ '\n') && digitsClose rest
  | _ => false

/-- Does the timit pattern match with the captured `(.*)` group being the
first `k` characters? -/
def timitCheck (s : List Char) (k : Nat) : Bool :=
  ((s.take k).all (fun c => c ≠ '\n')) && timitTail (s.drop k)

/-- `re.sub(r'^(.*) \(s.\d+\)$', r'\1', s, count=1)`: the greedy `(.*)`
keeps the longest prefix for which the rest of the line is a speaker
tag. -/
def timitSub (s : List Char) : List Char :=
  match (List.range (s.length + 1)).reverse.find? (timitCheck s) with
  | some k => s.take k
  | none => s

/-- The `filter` closure of `get_scripts_from_file`: arctic pattern first,
then timit pattern, each applied at most once. -/
def filterScript (s : List Char) : List Char :=
  timitSub (arcticSub s)

/-- `line.startswith(';')`. -/
def isCommentLine (l : List Char) : Bool :=
  l.head? == some ';'

/-! ### Prompt selection (`Recorder.get_scripts_from_file`,
recorder.py lines 89-111)

The random draws of `random.choice` are supplied by an index oracle
`pick`; `random.choice` raises `IndexError` on an empty sequence, which is
modelled with `Except`. -/

/-- `random.choice(seq)` at oracle index `i`. -/
def randomChoice (l : List (List Char)) (i : Nat) : Except Unit (List Char) :=
  match l with
  | [] => Except.error ()
  | _ :: _ => Except.ok (l.getD i [])

/-- `[random.choice(scripts) for _ in range(n)]`, the draws taken at the
given oracle indices, in order. -/
def chooseMany (scripts : List (List Char)) : List Nat → Except Unit (List (List Char))
  | [] => Except.ok []
  | i :: rest =>
    match randomChoice scripts i with
    | Except.error e => Except.error e
    | Except.ok x =>
      match chooseMany scripts rest with
      | Except.error e => Except.error e
      | Except.ok xs => Except.ok (x :: xs)

/-- Lines 103-107 of recorder.py applied to the already-loaded (filtered
and stripped) script list: draw `n` random choices with replacement,
truncate to `n`, then clean each selected line. -/
def select (scripts : List (List Char)) (n : Nat) (pick : Nat → Nat) :
    Except Unit (List (List Char)) :=
  match chooseMany scripts ((List.range n).map pick) with
  | Except.error e => Except.error e
  | Except.ok chosen => Except.ok ((chosen.take n).map filterScript)

/-- `Recorder.get_scripts_from_file(n, filename, randomize, split_len)`,
with the file contents passed as the list of its lines (without trailing
newlines) and the RNG as an index oracle. -/
def get_scripts_from_file (n : Option Nat) (lines : List (List Char))
    (randomize : Bool) (split_len : Option Nat) (pick : Nat → Nat) :
    Except Unit (List (List Char)) :=
  let scripts := (lines.filter (fun l => !(isCommentLine l))).map stripChars
  let count := n.getD scripts.length
  match (if randomize then chooseMany scripts ((List.range count).map pick)
         else Except.ok scripts) with
  | Except.error e => Except.error e
  | Except.ok scr =>
    let scr1 := scr.take count
    let scr2 := scr1.map filterScript
    let scr3 := match split_len with
      | none => scr2
      | some d => (scr2.map (fun sc => split_script sc d)).flatten
    Except.ok (scr3.take count)

/-- The prompts selected by a non-randomized `get_scripts_from_file` after
comment filtering, stripping, truncation to `n` and cleanup — the inputs
handed to the chunker. -/
def cleaned_prompts (n : Nat) (lines : List (List Char)) : List (List Char) :=
  (((lines.filter (fun l => !(isCommentLine l))).map stripChars).take n).map filterScript

/-! ### Metadata sanitisation (`Recorder.sanitize_script`,
recorder.py lines 113-117)

The body is a `return script.strip()` followed by two substitution
statements; straight-line Python bodies with an early return are modelled
as a statement list, where falling off the end yields Python's implicit
`None`. -/

inductive SanStmt where
  | ret (f : List Char → List Char)
  | assign (f : List Char → List Char)

/-- Run a straight-line body: `ret` stops execution and returns, `assign`
updates the variable, falling off the end returns `none`. -/
def runSan : List SanStmt → List Char → Option (List Char)
  | [], _ => none
  | SanStmt.ret f :: _, s => some (f s)
  | SanStmt.assign f :: rest, s => runSan rest (f s)

/-- `re.sub(r'[\-]', ' ', script)`. -/
def subDashes (s : List Char) : List Char :=
  s.map (fun c => if c = '-' then ' ' else c)

/-- `re.sub(r'[,.?!:;"]', '', script)`. -/
def stripPunct (s : List Char) : List Char :=
  s.filter (fun c => !(c = ',' || c = '.' || c = '?' || c = '!' || c = ':' || c = ';' || c = '"'))

/-- The statement sequence of `Recorder.sanitize_script`: the `return`
comes first, the two substitutions after it. -/
def sanitize_body : List SanStmt :=
  [SanStmt.ret stripChars, SanStmt.assign subDashes, SanStmt.assign stripPunct]

def sanitize_script (s : List Char) : Option (List Char) :=
  runSan sanitize_body s

/-! ### Startup order (`Recorder.__init__` and `main`,
recorder.py lines 19-27 and 152-160) -/

inductive InitEvent where
  | uiAppCreated
  | uiEngineCreated
  | audioCreated
  | uiWindowLoaded
deriving DecidableEq

/-- `Recorder.__init__`: the `save_dir` directory check, then the
`prompts_filename` file check, then `audio.Audio()`. -/
def recorder_init (saveDirIsDir promptsIsFile : Bool) : Except String (List InitEvent) :=
  if !saveDirIsDir then Except.error "save_dir is not a directory"
  else if !promptsIsFile then Except.error "prompts_filename is not a file"
  else Except.ok [InitEvent.audioCreated]

/-- `main`: the Qt application object and the QML engine are created
first, then the `Recorder` is constructed (running its configuration
checks and creating the audio object), then the QML window is loaded.
Returns the initialisation events that happened, paired with the fatal
configuration error if one was raised. -/
def mainRun (saveDirIsDir promptsIsFile : Bool) : List InitEvent × Option String :=
  let evs := [InitEvent.uiAppCreated, InitEvent.uiEngineCreated]
  match recorder_init saveDirIsDir promptsIsFile with
  | Except.error e => (evs, some e)
  | Except.ok initEvs => (evs ++ initEvs ++ [InitEvent.uiWindowLoaded], none)

/-! ### Claim theorems about selection, cleanup, sanitisation and startup -/

/-- The concrete corpus of claim C2. -/
def corpusC2 : List (List Char) :=
  [("hello world").data, ("; a comment").data, ("foo \"bar baz\"").data, ("qux (s5)").data]

/-- C2 counterexample: on the claimed corpus the code does *not* return
`["hello world", "bar baz", "qux"]`: the timit pattern `(s.\d+)` needs a
character *and* at least one digit after the `s`, so the two-character tag
`(s5)` does not match and `"qux (s5)"` is left unchanged. -/
theorem get_scripts_c2_counterexample :
    get_scripts_from_file (some 4) corpusC2 false none (fun _ => 0) ≠
      Except.ok [("hello world").data, ("bar baz").data, ("qux").data] := by
  intro h
  have hrun : get_scripts_from_file (some 4) corpusC2 false none (fun _ => 0) =
      Except.ok [("hello world").data, ("bar baz").data, ("qux (s5)").data] := rfl
  rw [hrun] at h
  exact absurd (Except.ok.inj h) (by decide)

/-- C2 (amended): on the claimed corpus, comment filtering keeps the raw
lines `["hello world", "foo \"bar baz\"", "qux (s5)"]`, and after cleanup
the returned prompts are `["hello world", "bar baz", "qux (s5)"]` — the
quote rule fires on the second line, but `(s5)` is too short for the
speaker-tag rule, which requires `s`, one character, and a digit run. -/
theorem get_scripts_c2_result :
    (corpusC2.filter (fun l => !(isCommentLine l))).map stripChars =
      [("hello world").data, ("foo \"bar baz\"").data, ("qux (s5)").data] ∧
    get_scripts_from_file (some 4) corpusC2 false none (fun _ => 0) =
      Except.ok [("hello world").data, ("bar baz").data, ("qux (s5)").data] :=
  ⟨rfl, rfl⟩

/-- C3 counterexample: with `n = 1`, corpus `["aa bb"]` and soft max 2 the
prompt splits into `["aa", "bb"]`, but the returned sequence is the
truncated `["aa"]`: the segment `"bb"` of a selected prompt is omitted. -/
theorem get_scripts_split_counterexample :
    get_scripts_from_file (some 1) [("aa bb").data] false (some 2) (fun _ => 0) =
      Except.ok [("aa").data] ∧
    ("bb").data ∈ split_script (("aa bb").data) 2 ∧
    ¬(∀ seg ∈ split_script (("aa bb").data) 2, seg ∈ [("aa").data]) := by
  refine ⟨rfl, by decide, by decide⟩

/-- C3 (amended): the returned sequence is the first `n` items of the
in-order concatenation of every selected prompt's segments — each prompt's
segments appear in order, but segments past the `n`-item truncation are
dropped; rejoining any selected prompt's full segment list with single
spaces still reproduces that prompt's words. -/
theorem get_scripts_segments_prefix (n : Nat) (lines : List (List Char)) (d : Nat)
    (pick : Nat → Nat) (hd : 1 ≤ d) :
    get_scripts_from_file (some n) lines false (some d) pick =
      Except.ok ((((cleaned_prompts n lines).map (fun p => split_script p d)).flatten).take n) ∧
    (((cleaned_prompts n lines).map (fun p => split_script p d)).flatten).take n <+:
      ((cleaned_prompts n lines).map (fun p => split_script p d)).flatten ∧
    ∀ p ∈ cleaned_prompts n lines, wordsOf (joinSpace (split_script p d)) = wordsOf p := by
  refine ⟨rfl, ⟨_, List.take_append_drop n _⟩, ?_⟩
  intro p _
  rw [joinSpace_words]
  have hw := split_loop_words p d (ceilNat p.length d) 0
    (by simpa using le_ceilNat_mul p.length d hd)
  rw [List.drop_zero] at hw
  exact hw

/-- C3 witness, at the counterexample corpus. -/
theorem get_scripts_segments_prefix_witness :
    get_scripts_from_file (some 1) [("aa bb").data] false (some 2) (fun _ => 0) =
      Except.ok ((((cleaned_prompts 1 [("aa bb").data]).map
        (fun p => split_script p 2)).flatten).take 1) ∧
    (((cleaned_prompts 1 [("aa bb").data]).map (fun p => split_script p 2)).flatten).take 1 <+:
      ((cleaned_prompts 1 [("aa bb").data]).map (fun p => split_script p 2)).flatten ∧
    ∀ p ∈ cleaned_prompts 1 [("aa bb").data],
      wordsOf (joinSpace (split_script p 2)) = wordsOf p :=
  get_scripts_segments_prefix 1 [("aa bb").data] 2 (fun _ => 0) (by decide)

theorem chooseMany_ok {scripts : List (List Char)} (hne : scripts ≠ []) :
    ∀ idxs : List Nat,
      chooseMany scripts idxs = Except.ok (idxs.map (fun i => scripts.getD i [])) := by
  intro idxs
  induction idxs with
  | nil => rfl
  | cons i rest ih =>
    cases scripts with
    | nil => exact absurd rfl hne
    | cons a t => simp [chooseMany, randomChoice, ih]

theorem getD_mem_of_lt {α : Type} {l : List α} {i : Nat} {dflt : α} (h : i < l.length) :
    l.getD i dflt ∈ l := by
  rw [List.getD_eq_getElem?_getD, List.getElem?_eq_getElem h]
  simp

/-- C5: for a non-empty (already comment-filtered) line list and an RNG
oracle whose draws are in range, randomized selection returns exactly `n`
items, each the cleanup of an element of the line list, and for
`n > len(lines)` the result necessarily contains a repeat (pigeonhole). -/
theorem select_spec (scripts : List (List Char)) (n : Nat) (pick : Nat → Nat)
    (hne : scripts ≠ []) (hpick : ∀ i, pick i < scripts.length) :
    ∃ res, select scripts n pick = Except.ok res ∧ res.length = n ∧
      (∀ r ∈ res, ∃ l ∈ scripts, r = filterScript l) ∧
      (scripts.length < n → ¬res.Nodup) := by
  have hch := chooseMany_ok hne ((List.range n).map pick)
  have hlen : (((List.range n).map pick).map (fun i => scripts.getD i [])).length = n := by
    simp
  refine ⟨((((List.range n).map pick).map (fun i => scripts.getD i [])).take n).map filterScript,
    ?_, ?_, ?_, ?_⟩
  · unfold select
    rw [hch]
  · simp
  · intro r hr
    rw [List.take_of_length_le (by simp)] at hr
    obtain ⟨raw, hraw, hfil⟩ := List.mem_map.mp hr
    obtain ⟨i, hi, hgd⟩ := List.mem_map.mp hraw
    obtain ⟨j, _, hji⟩ := List.mem_map.mp hi
    refine ⟨raw, ?_, hfil.symm⟩
    rw [← hgd]
    exact getD_mem_of_lt (hji ▸ hpick j)
  · intro hlt hnd
    set res := ((((List.range n).map pick).map (fun i => scripts.getD i [])).take n).map
      filterScript with hres
    have hsub : ∀ x ∈ res, x ∈ scripts.map filterScript := by
      intro x hx
      rw [hres, List.take_of_length_le (by simp)] at hx
      obtain ⟨raw, hraw, hfil⟩ := List.mem_map.mp hx
      obtain ⟨i, hi, hgd⟩ := List.mem_map.mp hraw
      obtain ⟨j, _, hji⟩ := List.mem_map.mp hi
      refine List.mem_map.mpr ⟨raw, ?_, hfil⟩
      rw [← hgd]
      exact getD_mem_of_lt (hji ▸ hpick j)
    have hcard1 : res.toFinset.card = res.length := List.toFinset_card_of_nodup hnd
    have hcard2 : res.toFinset ⊆ (scripts.map filterScript).toFinset := by
      intro x hx
      exact List.mem_toFinset.mpr (hsub x (List.mem_toFinset.mp hx))
    have hlen2 : res.length = n := by
      rw [hres]
      simp
    have := Finset.card_le_card hcard2
    have := List.toFinset_card_le (l := scripts.map filterScript)
    have hmaplen : (scripts.map filterScript).length = scripts.length := by simp
    omega

/-- C5 witness: two lines, three draws alternating between them. -/
theorem select_spec_witness :
    ∃ res, select [("ab").data, ("cd").data] 3 (fun i => i % 2) = Except.ok res ∧
      res.length = 3 ∧
      (∀ r ∈ res, ∃ l ∈ [("ab").data, ("cd").data], r = filterScript l) ∧
      (([("ab").data, ("cd").data] : List (List Char)).length < 3 → ¬res.Nodup) :=
  select_spec [("ab").data, ("cd").data] 3 (fun i => i % 2) (by decide)
    (fun i => Nat.mod_lt i (by decide))

/-- C8: `sanitize_script` returns exactly the whitespace-trimmed input and
nothing else; the punctuation-stripping substitutions after the
unconditional `return` are never executed (on input `","` the comma
survives although the dead code would remove it). -/
theorem sanitize_script_strip_only (s : List Char) :
    sanitize_script s = some (stripChars s) ∧
    ∃ t, sanitize_script t ≠ some (stripPunct (subDashes (stripChars t))) :=
  ⟨rfl, ⟨[','], by decide⟩⟩

/-- C9 counterexample: with a bad save directory the configuration error
is raised, but the Qt application object — a UI subsystem — has already
been created before the check runs, so the failure is *not* reported
before any UI initialises. -/
theorem config_error_after_ui_counterexample :
    (mainRun false true).2.isSome = true ∧
    InitEvent.uiAppCreated ∈ (mainRun false true).1 := by
  decide

/-- C9 (amended): if the save-directory or prompts-path check fails, the
program fails with a configuration error before the audio subsystem is
created and before the QML window is loaded — but only after the Qt
application and QML engine objects have been created. -/
theorem config_error_ordering (sd pf : Bool) (h : sd = false ∨ pf = false) :
    (mainRun sd pf).2.isSome = true ∧
    InitEvent.audioCreated ∉ (mainRun sd pf).1 ∧
    InitEvent.uiWindowLoaded ∉ (mainRun sd pf).1 ∧
    (mainRun sd pf).1 = [InitEvent.uiAppCreated, InitEvent.uiEngineCreated] := by
  cases sd with
  | false => cases pf <;> exact (by decide)
  | true =>
    cases pf with
    | false => exact (by decide)
    | true => rcases h with h | h <;> cases h

/-- C9 witness: bad save directory, good prompts file. -/
theorem config_error_ordering_witness :
    (mainRun false true).2.isSome = true ∧
    InitEvent.audioCreated ∉ (mainRun false true).1 ∧
    InitEvent.uiWindowLoaded ∉ (mainRun false true).1 ∧
    (mainRun false true).1 = [InitEvent.uiAppCreated, InitEvent.uiEngineCreated] :=
  config_error_ordering false true (Or.inl rfl)

/-- C10: when every corpus line is a comment the filtered list is empty,
and randomized selection with `n ≥ 1` raises (the IndexError of
`random.choice` on an empty sequence) instead of returning an empty prompt
sequence. -/
theorem get_scripts_all_comments_raises (lines : List (List Char)) (n : Nat)
    (pick : Nat → Nat) (split_len : Option Nat)
    (hall : ∀ l ∈ lines, isCommentLine l = true) (hn : 1 ≤ n) :
    get_scripts_from_file (some n) lines true split_len pick = Except.error () := by
  have hfil : lines.filter (fun l => !(isCommentLine l)) = [] := by
    rw [List.filter_eq_nil_iff]
    intro a ha
    simp [hall a ha]
  obtain ⟨m, rfl⟩ : ∃ m, n = m + 1 := ⟨n - 1, by omega⟩
  unfold get_scripts_from_file
  rw [hfil]
  simp only [List.map_nil, Option.getD_some, if_true, List.range_succ_eq_map, List.map_cons]
  simp [chooseMany, randomChoice]

/-- C10 witness: a single comment line, one draw requested. -/
theorem get_scripts_all_comments_raises_witness :
    get_scripts_from_file (some 1) [("; only a comment").data] true none (fun _ => 0) =
      Except.error () :=
  get_scripts_all_comments_raises [("; only a comment").data] 1 (fun _ => 0) none
    (by decide) (by decide)

end Recorder
